import Mathlib

/-!
# Verification of an AES-128 / OFB implementation

Shallow embedding of the C sources (`aes128e.c`, `obf.c`) of an AES-128
encryption core and its Output Feedback (OFB) mode of operation.
Bytes are modelled as `Nat` values below 256; byte buffers as `List Nat`.
Every definition mirrors the corresponding C function; the only numeric
operations the C code performs on bytes are XOR, table lookup and the
`xtime` doubling, so `Nat.xor` together with an explicit `% 256` in
`xtime` captures the machine arithmetic exactly.
-/

namespace AESOFB

/-- The AES S-box table `sbox[256]` from `aes128e.c`. -/
def sboxTable : List Nat :=
  [0x63, 0x7C, 0x77, 0x7B, 0xF2, 0x6B, 0x6F, 0xC5,
   0x30, 0x01, 0x67, 0x2B, 0xFE, 0xD7, 0xAB, 0x76,
   0xCA, 0x82, 0xC9, 0x7D, 0xFA, 0x59, 0x47, 0xF0,
   0xAD, 0xD4, 0xA2, 0xAF, 0x9C, 0xA4, 0x72, 0xC0,
   0xB7, 0xFD, 0x93, 0x26, 0x36, 0x3F, 0xF7, 0xCC,
   0x34, 0xA5, 0xE5, 0xF1, 0x71, 0xD8, 0x31, 0x15,
   0x04, 0xC7, 0x23, 0xC3, 0x18, 0x96, 0x05, 0x9A,
   0x07, 0x12, 0x80, 0xE2, 0xEB, 0x27, 0xB2, 0x75,
   0x09, 0x83, 0x2C, 0x1A, 0x1B, 0x6E, 0x5A, 0xA0,
   0x52, 0x3B, 0xD6, 0xB3, 0x29, 0xE3, 0x2F, 0x84,
   0x53, 0xD1, 0x00, 0xED, 0x20, 0xFC, 0xB1, 0x5B,
   0x6A, 0xCB, 0xBE, 0x39, 0x4A, 0x4C, 0x58, 0xCF,
   0xD0, 0xEF, 0xAA, 0xFB, 0x43, 0x4D, 0x33, 0x85,
   0x45, 0xF9, 0x02, 0x7F, 0x50, 0x3C, 0x9F, 0xA8,
   0x51, 0xA3, 0x40, 0x8F, 0x92, 0x9D, 0x38, 0xF5,
   0xBC, 0xB6, 0xDA, 0x21, 0x10, 0xFF, 0xF3, 0xD2,
   0xCD, 0x0C, 0x13, 0xEC, 0x5F, 0x97, 0x44, 0x17,
   0xC4, 0xA7, 0x7E, 0x3D, 0x64, 0x5D, 0x19, 0x73,
   0x60, 0x81, 0x4F, 0xDC, 0x22, 0x2A, 0x90, 0x88,
   0x46, 0xEE, 0xB8, 0x14, 0xDE, 0x5E, 0x0B, 0xDB,
   0xE0, 0x32, 0x3A, 0x0A, 0x49, 0x06, 0x24, 0x5C,
   0xC2, 0xD3, 0xAC, 0x62, 0x91, 0x95, 0xE4, 0x79,
   0xE7, 0xC8, 0x37, 0x6D, 0x8D, 0xD5, 0x4E, 0xA9,
   0x6C, 0x56, 0xF4, 0xEA, 0x65, 0x7A, 0xAE, 0x08,
   0xBA, 0x78, 0x25, 0x2E, 0x1C, 0xA6, 0xB4, 0xC6,
   0xE8, 0xDD, 0x74, 0x1F, 0x4B, 0xBD, 0x8B, 0x8A,
   0x70, 0x3E, 0xB5, 0x66, 0x48, 0x03, 0xF6, 0x0E,
   0x61, 0x35, 0x57, 0xB9, 0x86, 0xC1, 0x1D, 0x9E,
   0xE1, 0xF8, 0x98, 0x11, 0x69, 0xD9, 0x8E, 0x94,
   0x9B, 0x1E, 0x87, 0xE9, 0xCE, 0x55, 0x28, 0xDF,
   0x8C, 0xA1, 0x89, 0x0D, 0xBF, 0xE6, 0x42, 0x68,
   0x41, 0x99, 0x2D, 0x0F, 0xB0, 0x54, 0xBB, 0x16]

/-- S-box lookup `sbox[x]`. -/
def sbox (x : Nat) : Nat := sboxTable.getD x 0

/-- The round-constant table `Rcon[11]` from `aes128e.c`. -/
def RconTable : List Nat :=
  [0x00, 0x01, 0x02, 0x04, 0x08, 0x10, 0x20, 0x40, 0x80, 0x1B, 0x36]

/-- `xtime`: multiply a byte by 2 in GF(2^8).  The C code computes
`*x = (*x << 1) ^ ((*x & 0x80) ? 0x1b : 0x00)`; the assignment back to a
`uint8_t` truncates, hence the `% 256`. -/
def xtime (x : Nat) : Nat :=
  (Nat.xor (x <<< 1) (if x &&& 0x80 ≠ 0 then 0x1b else 0)) % 256

/-- The four bytes `RoundKey[i*4 .. i*4+3]` produced by iteration `i` of
the key-expansion loop: the previous word `RoundKey[(i-1)*4 ..]` is read
into `tempa`, the core transformation is applied to it when `i % 4 = 0`
(rotate, S-box, Rcon on the first byte), and byte `m` of the result is
`RoundKey[(i-4)*4 + m] XOR tempa[m]`. -/
def keyExpandWords (rk : List Nat) (i : Nat) : List Nat :=
  let t0 := rk.getD ((i - 1) * 4 + 0) 0
  let t1 := rk.getD ((i - 1) * 4 + 1) 0
  let t2 := rk.getD ((i - 1) * 4 + 2) 0
  let t3 := rk.getD ((i - 1) * 4 + 3) 0
  let tempa : List Nat :=
    if i % 4 = 0 then
      [Nat.xor (sbox t1) (RconTable.getD (i / 4) 0), sbox t2, sbox t3, sbox t0]
    else [t0, t1, t2, t3]
  [Nat.xor (rk.getD ((i - 4) * 4 + 0) 0) (tempa.getD 0 0),
   Nat.xor (rk.getD ((i - 4) * 4 + 1) 0) (tempa.getD 1 0),
   Nat.xor (rk.getD ((i - 4) * 4 + 2) 0) (tempa.getD 2 0),
   Nat.xor (rk.getD ((i - 4) * 4 + 3) 0) (tempa.getD 3 0)]

/-- One step of the key-expansion loop at index `i` (`4 ≤ i < 44`):
append the four bytes of word `i` to the round key built so far. -/
def keyExpandStep (rk : List Nat) (i : Nat) : List Nat :=
  rk ++ keyExpandWords rk i

/-- The first `n` iterations of the expansion loop of `KeyExpansion`
(the C loop runs `i` from `Nk = 4` to `Nb*(Nr+1) - 1 = 43`); the initial
round key is the byte-wise copy of the 16 key bytes. -/
def KeyExpansionAux (key : List Nat) : Nat → List Nat
  | 0 => (List.range 16).map fun j => key.getD j 0
  | n + 1 => keyExpandStep (KeyExpansionAux key n) (n + 4)

/-- `KeyExpansion(RoundKey, Key)`: the full 176-byte expanded key. -/
def KeyExpansion (key : List Nat) : List Nat := KeyExpansionAux key 40

/-- `AddRoundKey(round, state, RoundKey)`:
`state[i] ^= RoundKey[round*16 + i]` for `i = 0..15`. -/
def AddRoundKey (round : Nat) (state rk : List Nat) : List Nat :=
  (List.range 16).map fun i => Nat.xor (state.getD i 0) (rk.getD (round * 16 + i) 0)

/-- `SubBytes(state)`: substitute every state byte through the S-box. -/
def SubBytes (state : List Nat) : List Nat :=
  (List.range 16).map fun i => sbox (state.getD i 0)

/-- `ShiftRows(state)`: the in-place rotations of `aes128e.c`, written as
the permutation they realise on the 16 state bytes. -/
def ShiftRows (s : List Nat) : List Nat :=
  [s.getD 0 0,  s.getD 5 0,  s.getD 10 0, s.getD 15 0,
   s.getD 4 0,  s.getD 9 0,  s.getD 14 0, s.getD 3 0,
   s.getD 8 0,  s.getD 13 0, s.getD 2 0,  s.getD 7 0,
   s.getD 12 0, s.getD 1 0,  s.getD 6 0,  s.getD 11 0]

/-- One column of `MixColumns`: with `Tmp = s0^s1^s2^s3` and `t` the saved
original `s0`, each byte becomes `si ^ xtime(si ^ s_next) ^ Tmp`. -/
def mixColumn (s0 s1 s2 s3 : Nat) : List Nat :=
  let tmp := Nat.xor (Nat.xor (Nat.xor s0 s1) s2) s3
  [Nat.xor (Nat.xor s0 (xtime (Nat.xor s0 s1))) tmp,
   Nat.xor (Nat.xor s1 (xtime (Nat.xor s1 s2))) tmp,
   Nat.xor (Nat.xor s2 (xtime (Nat.xor s2 s3))) tmp,
   Nat.xor (Nat.xor s3 (xtime (Nat.xor s3 s0))) tmp]

/-- `MixColumns(state)`: mix each of the four 4-byte columns. -/
def MixColumns (s : List Nat) : List Nat :=
  mixColumn (s.getD 0 0) (s.getD 1 0) (s.getD 2 0) (s.getD 3 0) ++
  mixColumn (s.getD 4 0) (s.getD 5 0) (s.getD 6 0) (s.getD 7 0) ++
  mixColumn (s.getD 8 0) (s.getD 9 0) (s.getD 10 0) (s.getD 11 0) ++
  mixColumn (s.getD 12 0) (s.getD 13 0) (s.getD 14 0) (s.getD 15 0)

/-- `aes128e(output, input, key)`: AES-128 block encryption.  Copies the
input into the state, key-whitens with round key 0, runs rounds 1..9
(`SubBytes`, `ShiftRows`, `MixColumns`, `AddRoundKey`), then the final
round 10 without `MixColumns`. -/
def aes128e (input key : List Nat) : List Nat :=
  let RoundKey := KeyExpansion key
  let state0 := input.take 16
  let state1 := AddRoundKey 0 state0 RoundKey
  let state9 := (List.range' 1 9).foldl
    (fun s round => AddRoundKey round (MixColumns (ShiftRows (SubBytes s))) RoundKey) state1
  AddRoundKey 10 (ShiftRows (SubBytes state9)) RoundKey

/-- The full-block loop of `OFBaes128e`: starting from the chaining
register `feedback` at block index `i`, process `n` full 16-byte blocks.
Each iteration encrypts the feedback to obtain the keystream block
`block_out`, emits `ciphertext[i*16+j] = plaintext[i*16+j] ^ block_out[j]`
for `j = 0..15`, and overwrites the feedback with `block_out`.  Returns
the emitted ciphertext bytes and the final feedback. -/
def ofbFullBlocks (key pt : List Nat) (feedback : List Nat) (i : Nat) :
    Nat → List Nat × List Nat
  | 0 => ([], feedback)
  | n + 1 =>
    let block_out := aes128e feedback key
    let ctBlock := (List.range 16).map fun j =>
      Nat.xor (pt.getD (i * 16 + j) 0) (block_out.getD j 0)
    let rest := ofbFullBlocks key pt block_out (i + 1) n
    (ctBlock ++ rest.1, rest.2)

/-- `OFBaes128e(ciphertext, plaintext, length, iv, key)` from `obf.c`,
with `length = plaintext.length`: copy the IV into the feedback register,
process `length / 16` full blocks, then if `length % 16 > 0` generate one
more keystream block and XOR only its first `length % 16` bytes with the
remaining plaintext bytes. -/
def OFBaes128e (pt iv key : List Nat) : List Nat :=
  let feedback := iv.take 16
  let full_blocks := pt.length / 16
  let remaining := pt.length % 16
  let r := ofbFullBlocks key pt feedback 0 full_blocks
  if remaining > 0 then
    let block_out := aes128e r.2 key
    r.1 ++ ((List.range remaining).map fun j =>
      Nat.xor (pt.getD (full_blocks * 16 + j) 0) (block_out.getD j 0))
  else r.1

/-- `n`-fold iteration of the block cipher on the feedback register:
`iterAes key fb n` is the register contents after `n` keystream blocks
have been produced starting from `fb`. -/
def iterAes (key fb : List Nat) : Nat → List Nat
  | 0 => fb
  | n + 1 => aes128e (iterAes key fb n) key

/-- The OFB keystream blocks: block 0 is `aes128e(IV, key)` and block
`i+1` is `aes128e` of block `i` (each keystream block is fed back as the
next block-cipher input). -/
def ksBlock (key iv : List Nat) : Nat → List Nat
  | 0 => aes128e iv key
  | i + 1 => aes128e (ksBlock key iv i) key

/-- The memory visible at the `OFBaes128e` call boundary: the caller's
ciphertext, plaintext, IV and key buffers. -/
structure OFBState where
  ciphertext : List Nat
  plaintext : List Nat
  iv : List Nat
  key : List Nat

/-- The full-block loop of `OFBaes128e` acting on the caller's ciphertext
buffer: each byte store `ciphertext[i*16+j] = plaintext[i*16+j] ^
block_out[j]` becomes a `List.set` at that offset. -/
def runFullBlocks (key pt : List Nat) (ct feedback : List Nat) (i : Nat) :
    Nat → List Nat × List Nat
  | 0 => (ct, feedback)
  | n + 1 =>
    let block_out := aes128e feedback key
    let ct1 := (List.range 16).foldl
      (fun c j => c.set (i * 16 + j) (Nat.xor (pt.getD (i * 16 + j) 0) (block_out.getD j 0))) ct
    runFullBlocks key pt ct1 block_out (i + 1) n

/-- `OFBaes128e` as a transformer of the caller-visible memory: the body
of `obf.c` copies the IV into a local feedback buffer (`memcpy`), writes
only into the ciphertext buffer (and the locals `feedback`, `block_out`),
and contains no store through the `iv`, `plaintext` or `key` pointers. -/
def OFBaes128eRun (st : OFBState) (length : Nat) : OFBState :=
  let feedback := st.iv.take 16
  let full_blocks := length / 16
  let remaining := length % 16
  let r := runFullBlocks st.key st.plaintext st.ciphertext feedback 0 full_blocks
  let ct2 :=
    if remaining > 0 then
      let block_out := aes128e r.2 st.key
      (List.range remaining).foldl
        (fun c j => c.set (full_blocks * 16 + j)
          (Nat.xor (st.plaintext.getD (full_blocks * 16 + j) 0) (block_out.getD j 0))) r.1
    else r.1
  { st with ciphertext := ct2 }

/-- The AES round structure exactly as the specification words it: copy
the input into the State; XOR with round-key block 0; rounds 1..9 each
apply `SubBytes`, `ShiftRows`, `MixColumns` and XOR with round-key block
`round`, in that order; the final round applies `SubBytes`, `ShiftRows`
and XOR with round-key block 10, with `MixColumns` omitted. -/
def aes128eSpec (input key : List Nat) : List Nat :=
  let rk := KeyExpansion key
  let s0 := AddRoundKey 0 (input.take 16) rk
  let s1 := AddRoundKey 1 (MixColumns (ShiftRows (SubBytes s0))) rk
  let s2 := AddRoundKey 2 (MixColumns (ShiftRows (SubBytes s1))) rk
  let s3 := AddRoundKey 3 (MixColumns (ShiftRows (SubBytes s2))) rk
  let s4 := AddRoundKey 4 (MixColumns (ShiftRows (SubBytes s3))) rk
  let s5 := AddRoundKey 5 (MixColumns (ShiftRows (SubBytes s4))) rk
  let s6 := AddRoundKey 6 (MixColumns (ShiftRows (SubBytes s5))) rk
  let s7 := AddRoundKey 7 (MixColumns (ShiftRows (SubBytes s6))) rk
  let s8 := AddRoundKey 8 (MixColumns (ShiftRows (SubBytes s7))) rk
  let s9 := AddRoundKey 9 (MixColumns (ShiftRows (SubBytes s8))) rk
  AddRoundKey 10 (ShiftRows (SubBytes s9)) rk

/-- The 4-byte word `w[i]` of an expanded key, i.e. bytes `4i .. 4i+3`. -/
def rkWord (rk : List Nat) (i : Nat) : List Nat :=
  [rk.getD (4 * i + 0) 0, rk.getD (4 * i + 1) 0,
   rk.getD (4 * i + 2) 0, rk.getD (4 * i + 3) 0]

/-- The key-schedule core transformation as the specification words it:
one-byte left rotation of the word, S-box substitution of every byte,
then XOR of the first byte with the round constant `Rcon[r]`. -/
def scheduleCore (w : List Nat) (r : Nat) : List Nat :=
  let rot := [w.getD 1 0, w.getD 2 0, w.getD 3 0, w.getD 0 0]
  let sub := rot.map sbox
  [Nat.xor (sub.getD 0 0) (RconTable.getD r 0), sub.getD 1 0, sub.getD 2 0, sub.getD 3 0]

/-- 16 zero bytes. -/
def zeros16 : List Nat := List.replicate 16 0

/-- The FIPS-197 Appendix C.1 plaintext `00112233445566778899aabbccddeeff`. -/
def fipsPlain : List Nat :=
  [0x00, 0x11, 0x22, 0x33, 0x44, 0x55, 0x66, 0x77,
   0x88, 0x99, 0xaa, 0xbb, 0xcc, 0xdd, 0xee, 0xff]

/-- The FIPS-197 Appendix C.1 key `000102030405060708090a0b0c0d0e0f`. -/
def fipsKey : List Nat :=
  [0x00, 0x01, 0x02, 0x03, 0x04, 0x05, 0x06, 0x07,
   0x08, 0x09, 0x0a, 0x0b, 0x0c, 0x0d, 0x0e, 0x0f]

/-- The FIPS-197 Appendix C.1 ciphertext `69c4e0d86a7b0430d8cdb78070b4c55a`. -/
def fipsCipher : List Nat :=
  [0x69, 0xc4, 0xe0, 0xd8, 0x6a, 0x7b, 0x04, 0x30,
   0xd8, 0xcd, 0xb7, 0x80, 0x70, 0xb4, 0xc5, 0x5a]

/-- AES-128 of the all-zero block under the all-zero key:
`66e94bd4ef8a2c3b884cfa59ca342b2e`. -/
def zeroCipher : List Nat :=
  [0x66, 0xe9, 0x4b, 0xd4, 0xef, 0x8a, 0x2c, 0x3b,
   0x88, 0x4c, 0xfa, 0x59, 0xca, 0x34, 0x2b, 0x2e]

/-! ## Basic lemmas -/

theorem getD_map_range (f : Nat → Nat) (n k : Nat) (hk : k < n) :
    ((List.range n).map f).getD k 0 = f k := by
  rw [List.getD_eq_getElem _ 0 (by simpa using hk)]
  simp

theorem length_aes128e (input key : List Nat) : (aes128e input key).length = 16 := by
  simp [aes128e, AddRoundKey]

theorem aes128e_take (input key : List Nat) :
    aes128e (input.take 16) key = aes128e input key := by
  simp [aes128e, List.take_take]

theorem iterAes_aes (key fb : List Nat) (n : Nat) :
    iterAes key (aes128e fb key) n = iterAes key fb (n + 1) := by
  induction n with
  | zero => rfl
  | succ n ih => simp only [iterAes, ih]

theorem ksBlock_eq_iterAes (key iv : List Nat) (n : Nat) :
    ksBlock key iv n = iterAes key (iv.take 16) (n + 1) := by
  induction n with
  | zero =>
    show aes128e iv key = aes128e (iterAes key (iv.take 16) 0) key
    rw [show iterAes key (iv.take 16) 0 = iv.take 16 from rfl, aes128e_take]
  | succ n ih =>
    show aes128e (ksBlock key iv n) key = aes128e (iterAes key (iv.take 16) (n + 1)) key
    rw [ih]

theorem ofbFullBlocks_snd (key pt : List Nat) (fb : List Nat) (i n : Nat) :
    (ofbFullBlocks key pt fb i n).2 = iterAes key fb n := by
  induction n generalizing fb i with
  | zero => rfl
  | succ n ih =>
    show (ofbFullBlocks key pt (aes128e fb key) (i + 1) n).2 = _
    rw [ih, iterAes_aes]

theorem ofbFullBlocks_fst_length (key pt : List Nat) (fb : List Nat) (i n : Nat) :
    (ofbFullBlocks key pt fb i n).1.length = 16 * n := by
  induction n generalizing fb i with
  | zero => rfl
  | succ n ih =>
    show ((List.range 16).map _ ++ (ofbFullBlocks key pt (aes128e fb key) (i + 1) n).1).length = _
    rw [List.length_append, ih]
    simp
    omega

theorem ofbFullBlocks_fst_getD (key pt : List Nat) (fb : List Nat) (i n k : Nat)
    (hk : k < 16 * n) :
    (ofbFullBlocks key pt fb i n).1.getD k 0
      = Nat.xor (pt.getD (i * 16 + k) 0)
          ((iterAes key fb (k / 16 + 1)).getD (k % 16) 0) := by
  induction n generalizing fb i k with
  | zero => omega
  | succ n ih =>
    show (((List.range 16).map fun j => Nat.xor (pt.getD (i * 16 + j) 0)
            ((aes128e fb key).getD j 0))
          ++ (ofbFullBlocks key pt (aes128e fb key) (i + 1) n).1).getD k 0 = _
    by_cases hsmall : k < 16
    · rw [List.getD_append _ _ 0 k (by simpa using hsmall)]
      rw [getD_map_range _ 16 k hsmall]
      have h1 : k / 16 + 1 = 1 := by omega
      have h2 : k % 16 = k := by omega
      rw [h1, h2]
      rfl
    · push_neg at hsmall
      rw [List.getD_append_right _ _ 0 k (by simpa using hsmall)]
      have hlen : ((List.range 16).map fun j => Nat.xor (pt.getD (i * 16 + j) 0)
          ((aes128e fb key).getD j 0)).length = 16 := by simp
      rw [hlen]
      rw [ih (aes128e fb key) (i + 1) (k - 16) (by omega)]
      rw [iterAes_aes]
      have h1 : (i + 1) * 16 + (k - 16) = i * 16 + k := by omega
      have h2 : (k - 16) / 16 + 1 + 1 = k / 16 + 1 := by omega
      have h3 : (k - 16) % 16 = k % 16 := by omega
      rw [h1, h2, h3]

/-- Byte-level characterisation of `OFBaes128e`: every output byte is the
corresponding plaintext byte XORed with the keystream byte at the same
position, where byte `k` of the keystream is byte `k % 16` of keystream
block `k / 16`. -/
theorem OFBaes128e_getD (pt iv key : List Nat) (k : Nat) (hk : k < pt.length) :
    (OFBaes128e pt iv key).getD k 0
      = Nat.xor (pt.getD k 0) ((ksBlock key iv (k / 16)).getD (k % 16) 0) := by
  simp only [OFBaes128e]
  by_cases hrem : 0 < pt.length % 16
  · rw [if_pos hrem]
    by_cases hfull : k < 16 * (pt.length / 16)
    · rw [List.getD_append _ _ 0 k
        (by rw [ofbFullBlocks_fst_length]; exact hfull)]
      rw [ofbFullBlocks_fst_getD key pt (iv.take 16) 0 _ k hfull]
      rw [← ksBlock_eq_iterAes]
      simp
    · push_neg at hfull
      rw [List.getD_append_right _ _ 0 k
        (by rw [ofbFullBlocks_fst_length]; exact hfull)]
      rw [ofbFullBlocks_fst_length]
      rw [getD_map_range _ _ _ (by omega)]
      rw [ofbFullBlocks_snd]
      have hbo : aes128e (iterAes key (iv.take 16) (pt.length / 16)) key
          = ksBlock key iv (pt.length / 16) := by
        rw [ksBlock_eq_iterAes]; rfl
      rw [hbo]
      have h1 : pt.length / 16 * 16 + (k - 16 * (pt.length / 16)) = k := by omega
      have h2 : pt.length / 16 = k / 16 := by omega
      rw [h1, h2]
      rw [show k - 16 * (k / 16) = k % 16 by omega]
  · rw [if_neg hrem]
    have hfull : k < 16 * (pt.length / 16) := by omega
    rw [ofbFullBlocks_fst_getD key pt (iv.take 16) 0 _ k hfull]
    rw [← ksBlock_eq_iterAes]
    simp

/-- The ciphertext produced by `OFBaes128e` has exactly the plaintext's
length. -/
theorem length_OFBaes128e (pt iv key : List Nat) :
    (OFBaes128e pt iv key).length = pt.length := by
  simp only [OFBaes128e]
  by_cases hrem : 0 < pt.length % 16
  · rw [if_pos hrem]
    rw [List.length_append, ofbFullBlocks_fst_length]
    simp
    omega
  · rw [if_neg hrem]
    rw [ofbFullBlocks_fst_length]
    omega

/-! ## Key-expansion lemmas -/

theorem length_keyExpandWords (rk : List Nat) (i : Nat) :
    (keyExpandWords rk i).length = 4 := rfl

theorem length_KeyExpansionAux (key : List Nat) (n : Nat) :
    (KeyExpansionAux key n).length = 16 + 4 * n := by
  induction n with
  | zero => simp [KeyExpansionAux]
  | succ n ih =>
    show (KeyExpansionAux key n ++ keyExpandWords (KeyExpansionAux key n) (n + 4)).length = _
    rw [List.length_append, ih, length_keyExpandWords]
    omega

theorem KeyExpansionAux_succ (key : List Nat) (n : Nat) :
    KeyExpansionAux key (n + 1)
      = KeyExpansionAux key n ++ keyExpandWords (KeyExpansionAux key n) (n + 4) := rfl

theorem KeyExpansionAux_getD_stable (key : List Nat) (n m k : Nat) (hk : k < 16 + 4 * n) :
    (KeyExpansionAux key (n + m)).getD k 0 = (KeyExpansionAux key n).getD k 0 := by
  induction m with
  | zero => rfl
  | succ m ih =>
    show (KeyExpansionAux key (n + m) ++ keyExpandWords _ _).getD k 0 = _
    rw [List.getD_append _ _ 0 k (by rw [length_KeyExpansionAux]; omega), ih]

theorem KeyExpansion_getD_aux (key : List Nat) (n k : Nat) (hn : n ≤ 40)
    (hk : k < 16 + 4 * n) :
    (KeyExpansion key).getD k 0 = (KeyExpansionAux key n).getD k 0 := by
  have h : n + (40 - n) = 40 := by omega
  show (KeyExpansionAux key 40).getD k 0 = _
  rw [← h, KeyExpansionAux_getD_stable key n (40 - n) k hk]

theorem KeyExpansion_getD_new (key : List Nat) (n t : Nat) (hn : n < 40) (ht : t < 4) :
    (KeyExpansion key).getD (16 + 4 * n + t) 0
      = (keyExpandWords (KeyExpansionAux key n) (n + 4)).getD t 0 := by
  rw [KeyExpansion_getD_aux key (n + 1) _ (by omega) (by omega)]
  rw [KeyExpansionAux_succ]
  rw [List.getD_append_right _ _ 0 _ (by rw [length_KeyExpansionAux]; omega)]
  rw [length_KeyExpansionAux]
  congr 1
  omega

theorem map_range_getD (l : List Nat) :
    (List.range l.length).map (fun j => l.getD j 0) = l := by
  induction l with
  | nil => rfl
  | cons a t ih =>
    have hc : ((fun j => (a :: t).getD j 0) ∘ Nat.succ) = fun j => t.getD j 0 := by
      funext j; rfl
    rw [List.length_cons, List.range_succ_eq_map, List.map_cons, List.map_map, hc, ih]
    rfl

theorem KeyExpansionAux_zero (key : List Nat) (hk : key.length = 16) :
    KeyExpansionAux key 0 = key := by
  show (List.range 16).map (fun j => key.getD j 0) = key
  rw [← hk, map_range_getD]

theorem KeyExpansion_take16 (key : List Nat) (hk : key.length = 16) :
    (KeyExpansion key).take 16 = key := by
  apply List.ext_getElem
  · rw [List.length_take]
    show min 16 (KeyExpansionAux key 40).length = key.length
    rw [length_KeyExpansionAux]
    omega
  · intro n h1 h2
    have hn16 : n < 16 := by omega
    rw [List.getElem_take]
    rw [← List.getD_eq_getElem _ 0, ← List.getD_eq_getElem _ 0]
    rw [KeyExpansion_getD_aux key 0 n (by omega) (by omega), KeyExpansionAux_zero key hk]

/-- The key-schedule recurrence, written for word index `n + 4`:
word `n+4` is word `n` XOR (the core transformation of word `n+3` when
`(n+4) % 4 = 0`, word `n+3` otherwise). -/
theorem KeyExpansion_word_rec (key : List Nat) (n : Nat) (hn : n < 40) :
    rkWord (KeyExpansion key) (n + 4)
      = List.zipWith Nat.xor (rkWord (KeyExpansion key) n)
          (if (n + 4) % 4 = 0 then
            scheduleCore (rkWord (KeyExpansion key) (n + 3)) ((n + 4) / 4)
           else rkWord (KeyExpansion key) (n + 3)) := by
  have i0 : 4 * (n + 4) + 0 = 16 + 4 * n + 0 := by omega
  have i1 : 4 * (n + 4) + 1 = 16 + 4 * n + 1 := by omega
  have i2 : 4 * (n + 4) + 2 = 16 + 4 * n + 2 := by omega
  have i3 : 4 * (n + 4) + 3 = 16 + 4 * n + 3 := by omega
  have b0 : (n + 4 - 4) * 4 + 0 = 4 * n + 0 := by omega
  have b1 : (n + 4 - 4) * 4 + 1 = 4 * n + 1 := by omega
  have b2 : (n + 4 - 4) * 4 + 2 = 4 * n + 2 := by omega
  have b3 : (n + 4 - 4) * 4 + 3 = 4 * n + 3 := by omega
  have c0 : (n + 4 - 1) * 4 + 0 = 4 * (n + 3) + 0 := by omega
  have c1 : (n + 4 - 1) * 4 + 1 = 4 * (n + 3) + 1 := by omega
  have c2 : (n + 4 - 1) * 4 + 2 = 4 * (n + 3) + 2 := by omega
  have c3 : (n + 4 - 1) * 4 + 3 = 4 * (n + 3) + 3 := by omega
  simp only [rkWord, i0, i1, i2, i3,
    KeyExpansion_getD_new key n 0 hn (by omega),
    KeyExpansion_getD_new key n 1 hn (by omega),
    KeyExpansion_getD_new key n 2 hn (by omega),
    KeyExpansion_getD_new key n 3 hn (by omega)]
  simp only [keyExpandWords, b0, b1, b2, b3, c0, c1, c2, c3]
  simp only [← KeyExpansion_getD_aux key n (4 * n + 0) (by omega) (by omega),
    ← KeyExpansion_getD_aux key n (4 * n + 1) (by omega) (by omega),
    ← KeyExpansion_getD_aux key n (4 * n + 2) (by omega) (by omega),
    ← KeyExpansion_getD_aux key n (4 * n + 3) (by omega) (by omega),
    ← KeyExpansion_getD_aux key n (4 * (n + 3) + 0) (by omega) (by omega),
    ← KeyExpansion_getD_aux key n (4 * (n + 3) + 1) (by omega) (by omega),
    ← KeyExpansion_getD_aux key n (4 * (n + 3) + 2) (by omega) (by omega),
    ← KeyExpansion_getD_aux key n (4 * (n + 3) + 3) (by omega) (by omega)]
  by_cases hmod : (n + 4) % 4 = 0
  · simp only [if_pos hmod]
    simp [scheduleCore, List.zipWith]
  · simp only [if_neg hmod]
    simp [List.zipWith]

theorem xorCancelRight (a b : Nat) : Nat.xor (Nat.xor a b) b = a :=
  Nat.xor_cancel_right b a

theorem xorComm (a b : Nat) : Nat.xor a b = Nat.xor b a :=
  Nat.xor_comm a b

/-! ## Claim theorems -/

/-- C1: for every 16-byte key and 16-byte IV and every plaintext,
applying `OFBaes128e` to the plaintext and then applying it again with
the same key and IV to the resulting ciphertext reproduces the original
plaintext exactly (OFB self-inverse). -/
theorem OFB_self_inverse (pt iv key : List Nat)
    (hiv : iv.length = 16) (hkey : key.length = 16) :
    OFBaes128e (OFBaes128e pt iv key) iv key = pt := by
  apply List.ext_getElem
  · rw [length_OFBaes128e, length_OFBaes128e]
  · intro n h1 h2
    have hn : n < pt.length := h2
    have hct : n < (OFBaes128e pt iv key).length := by
      rw [length_OFBaes128e]; exact hn
    rw [← List.getD_eq_getElem _ 0 h1, ← List.getD_eq_getElem _ 0 h2]
    rw [OFBaes128e_getD _ iv key n hct, OFBaes128e_getD pt iv key n hn]
    rw [xorCancelRight]

/-- C1 witness: round-tripping the 3-byte plaintext `41 42 43` through
`OFBaes128e` twice under the all-zero key and IV gives it back. -/
theorem OFB_self_inverse_witness :
    zeros16.length = 16 ∧
    OFBaes128e (OFBaes128e [0x41, 0x42, 0x43] zeros16 zeros16) zeros16 zeros16
      = [0x41, 0x42, 0x43] :=
  ⟨by decide, OFB_self_inverse [0x41, 0x42, 0x43] zeros16 zeros16 (by decide) (by decide)⟩

/-- C2: `aes128e` reproduces the FIPS-197 Appendix C.1 known-answer
vector byte-for-byte; the all-zero block under the all-zero key encrypts
to the fixed value `66e94bd4ef8a2c3b884cfa59ca342b2e`; and the OFB
ciphertext of 16 zero plaintext bytes under zero key and zero IV equals
that same value. -/
theorem aes128e_known_answer :
    aes128e fipsPlain fipsKey = fipsCipher ∧
    aes128e zeros16 zeros16 = zeroCipher ∧
    OFBaes128e zeros16 zeros16 zeros16 = zeroCipher :=
  ⟨by decide, by decide, by decide⟩

/-- C3: `aes128e` computes exactly the round structure the specification
describes: copy the input into the State, XOR with round-key block 0,
rounds 1..9 apply `SubBytes`, `ShiftRows`, `MixColumns` and the round
key in that order, and the final round omits `MixColumns`. -/
theorem aes128e_round_structure (input key : List Nat) :
    aes128e input key = aes128eSpec input key := rfl

/-- C4: for a 16-byte key the schedule yields 176 bytes (11 blocks of
16), block 0 is the key itself, and every word `w[i]` for `i = 4..43` is
`w[i-4] XOR w[i-1]`, where `w[i-1]` is first rotated, S-box substituted
and Rcon-adjusted exactly when `i` is a multiple of 4. -/
theorem keyExpansion_contract (key : List Nat) (hk : key.length = 16) :
    (KeyExpansion key).length = 176 ∧
    (KeyExpansion key).take 16 = key ∧
    ∀ i, 4 ≤ i → i < 44 →
      rkWord (KeyExpansion key) i
        = List.zipWith Nat.xor (rkWord (KeyExpansion key) (i - 4))
            (if i % 4 = 0 then
              scheduleCore (rkWord (KeyExpansion key) (i - 1)) (i / 4)
             else rkWord (KeyExpansion key) (i - 1)) := by
  refine ⟨?_, KeyExpansion_take16 key hk, ?_⟩
  · show (KeyExpansionAux key 40).length = 176
    rw [length_KeyExpansionAux]
  · intro i h4 h44
    have h := KeyExpansion_word_rec key (i - 4) (by omega)
    simp only [show i - 4 + 4 = i by omega, show i - 4 + 3 = i - 1 by omega] at h
    exact h

/-- C4 witness: the contract instantiated at the FIPS-197 key. -/
theorem keyExpansion_contract_witness :
    fipsKey.length = 16 ∧
    ((KeyExpansion fipsKey).length = 176 ∧
     (KeyExpansion fipsKey).take 16 = fipsKey ∧
     ∀ i, 4 ≤ i → i < 44 →
       rkWord (KeyExpansion fipsKey) i
         = List.zipWith Nat.xor (rkWord (KeyExpansion fipsKey) (i - 4))
             (if i % 4 = 0 then
               scheduleCore (rkWord (KeyExpansion fipsKey) (i - 1)) (i / 4)
              else rkWord (KeyExpansion fipsKey) (i - 1))) :=
  ⟨by decide, keyExpansion_contract fipsKey (by decide)⟩

/-- C5: ciphertext byte `i*16 + j` of a full block `i < L/16` equals
plaintext byte `i*16 + j` XOR byte `j` of keystream block `i`, where
keystream block 0 is `aes128e(IV, key)` and block `i+1` is `aes128e` of
block `i` (`ksBlock`). -/
theorem OFB_full_blocks (pt iv key : List Nat) (i j : Nat)
    (hi : i < pt.length / 16) (hj : j < 16) :
    (OFBaes128e pt iv key).getD (i * 16 + j) 0
      = Nat.xor (pt.getD (i * 16 + j) 0) ((ksBlock key iv i).getD j 0) := by
  have hk : i * 16 + j < pt.length := by omega
  rw [OFBaes128e_getD pt iv key _ hk]
  rw [show (i * 16 + j) / 16 = i by omega, show (i * 16 + j) % 16 = j by omega]

/-- C5 witness: the first byte of the OFB encryption of 16 zero bytes
under the zero key and IV. -/
theorem OFB_full_blocks_witness :
    0 < zeros16.length / 16 ∧ 0 < 16 ∧
    (OFBaes128e zeros16 zeros16 zeros16).getD 0 0
      = Nat.xor (zeros16.getD 0 0) ((ksBlock zeros16 zeros16 0).getD 0 0) :=
  ⟨by decide, by decide,
    by simpa using OFB_full_blocks zeros16 zeros16 zeros16 0 0 (by decide) (by decide)⟩

/-- C6: when `r = L mod 16 > 0`, the ciphertext has length exactly `L`
(so only `r` tail bytes are produced and the rest of the last keystream
block is discarded), and each tail byte `j < r` at position `(L/16)*16+j`
is the corresponding plaintext byte XOR byte `j` of one additional
keystream block `ksBlock key iv (L/16)` computed from the current
chaining register. -/
theorem OFB_tail_block (pt iv key : List Nat) (j : Nat)
    (hr : 0 < pt.length % 16) (hj : j < pt.length % 16) :
    (OFBaes128e pt iv key).length = pt.length ∧
    (OFBaes128e pt iv key).getD (pt.length / 16 * 16 + j) 0
      = Nat.xor (pt.getD (pt.length / 16 * 16 + j) 0)
          ((ksBlock key iv (pt.length / 16)).getD j 0) := by
  refine ⟨length_OFBaes128e pt iv key, ?_⟩
  have hk : pt.length / 16 * 16 + j < pt.length := by omega
  rw [OFBaes128e_getD pt iv key _ hk]
  rw [show (pt.length / 16 * 16 + j) / 16 = pt.length / 16 by omega,
      show (pt.length / 16 * 16 + j) % 16 = j by omega]

/-- C6 witness: the single-byte plaintext `7F` (`L = 1`). -/
theorem OFB_tail_block_witness :
    0 < [0x7F].length % 16 ∧ 0 < [0x7F].length % 16 ∧
    ((OFBaes128e [0x7F] zeros16 zeros16).length = [0x7F].length ∧
     (OFBaes128e [0x7F] zeros16 zeros16).getD ([0x7F].length / 16 * 16 + 0) 0
       = Nat.xor ([0x7F].getD ([0x7F].length / 16 * 16 + 0) 0)
           ((ksBlock zeros16 zeros16 ([0x7F].length / 16)).getD 0 0)) :=
  ⟨by decide, by decide,
    OFB_tail_block [0x7F] zeros16 zeros16 0 (by decide) (by decide)⟩

/-- C7: the ciphertext produced by `OFBaes128e` always has exactly the
plaintext's length; in particular the empty plaintext yields the empty
ciphertext. -/
theorem OFB_length_invariant (pt iv key : List Nat) :
    (OFBaes128e pt iv key).length = pt.length ∧ OFBaes128e [] iv key = [] :=
  ⟨length_OFBaes128e pt iv key, rfl⟩

set_option maxRecDepth 4000 in
/-- C8: `xtime` computes `(x << 1) XOR 0x1B` when the high bit of `x` is
set and `(x << 1)` otherwise, truncated to one byte. -/
theorem xtime_byte_double : ∀ x, x < 256 →
    xtime x = if 128 ≤ x then (Nat.xor (x <<< 1) 0x1B) % 256 else (x <<< 1) % 256 := by
  decide

/-- C8 witness: `xtime` at the byte `0x80`, whose high bit is set. -/
theorem xtime_byte_double_witness :
    0x80 < 256 ∧
    xtime 0x80 = if 128 ≤ 0x80 then (Nat.xor (0x80 <<< 1) 0x1B) % 256
                 else (0x80 <<< 1) % 256 :=
  ⟨by decide, xtime_byte_double 0x80 (by decide)⟩

/-- C9: `OFBaes128e` writes only into the caller's ciphertext buffer:
the IV (copied into the internal feedback register), the plaintext and
the key visible at the call boundary are identical before and after. -/
theorem OFB_run_frame (st : OFBState) (length : Nat) :
    (OFBaes128eRun st length).iv = st.iv ∧
    (OFBaes128eRun st length).plaintext = st.plaintext ∧
    (OFBaes128eRun st length).key = st.key :=
  ⟨rfl, rfl, rfl⟩

/-- C10: the OFB keystream is independent of the plaintext: for any two
plaintexts of the same length, XORing each ciphertext with its own
plaintext yields the same byte at every position. -/
theorem OFB_keystream_independent (p1 p2 iv key : List Nat)
    (hlen : p1.length = p2.length) (k : Nat) (hk : k < p1.length) :
    Nat.xor ((OFBaes128e p1 iv key).getD k 0) (p1.getD k 0)
      = Nat.xor ((OFBaes128e p2 iv key).getD k 0) (p2.getD k 0) := by
  have hk2 : k < p2.length := by omega
  rw [OFBaes128e_getD p1 iv key k hk, OFBaes128e_getD p2 iv key k hk2]
  rw [xorComm (p1.getD k 0), xorCancelRight, xorComm (p2.getD k 0), xorCancelRight]

/-- C10 witness: the plaintexts `00` and `FF` of length 1 under the
all-zero key and IV. -/
theorem OFB_keystream_independent_witness :
    [(0 : Nat)].length = [(0xFF : Nat)].length ∧ 0 < [(0 : Nat)].length ∧
    Nat.xor ((OFBaes128e [0] zeros16 zeros16).getD 0 0) ([(0 : Nat)].getD 0 0)
      = Nat.xor ((OFBaes128e [0xFF] zeros16 zeros16).getD 0 0) ([(0xFF : Nat)].getD 0 0) :=
  ⟨by decide, by decide,
    OFB_keystream_independent [0] [0xFF] zeros16 zeros16 (by decide) 0 (by decide)⟩

end AESOFB
